import Mathlib

/-!
Verification of the expression-evaluation core of the calculator
(`tokenize` → `handleUnaryMinus` → `shuntingYard` → `evalRPN` →
`formatResult`, orchestrated by `calculate`).

The JavaScript source operates on IEEE-754 doubles; this embedding models
numeric values as exact rationals (`ℚ`).  Tokens, which in the source are
JS numbers or the strings "+", "-", "*", "/", "NEG", "(", ")", are modelled
as a sum type.  Thrown exceptions are modelled with `Except`.
-/

namespace Calc

/-- The four error kinds thrown by the source (`throw new Error(msg)`). -/
inductive CalcError where
  | invalidCharacter
  | malformedExpression
  | mismatchedParentheses
  | divisionByZero
deriving DecidableEq, Repr

/-- The message attached to each thrown error in the source. -/
def CalcError.message : CalcError → String
  | .invalidCharacter => "Invalid character"
  | .malformedExpression => "Malformed expression"
  | .mismatchedParentheses => "Mismatched parentheses"
  | .divisionByZero => "Division by zero"

/-- Tokens produced by `tokenize` / rewritten by `handleUnaryMinus`.
In the source these are JS numbers and the strings
`"+" "-" "*" "/" "(" ")" "NEG"`. -/
inductive Token where
  | num (v : ℚ)
  | plus
  | minus
  | times
  | div
  | neg
  | lparen
  | rparen
deriving DecidableEq, Repr

/-- `isOperator` from the source: `['+','-','*','/','NEG'].includes(token)`. -/
def isOperator : Token → Bool
  | .plus | .minus | .times | .div | .neg => true
  | _ => false

/-- `precedence` from the source: `+ -` ↦ 1, `* /` ↦ 2, `NEG` ↦ 3, else 0. -/
def precedence : Token → Nat
  | .plus | .minus => 1
  | .times | .div => 2
  | .neg => 3
  | _ => 0

/-! ## Tokenizer -/

/-- The whitespace strip `expr.replace(/\s+/g, "")` (the JS `\s` class is
modelled by `Char.isWhitespace`). -/
def stripWs (cs : List Char) : List Char :=
  cs.filter (fun c => !c.isWhitespace)

/-- The inner scanning loop of `tokenize`: starting inside a numeric run with
dot-seen flag `hasDot`, consume digits and at most one `'.'`; returns the
consumed run and the remaining characters. -/
def scanNum : List Char → Bool → List Char × List Char
  | [], _ => ([], [])
  | c :: cs, hasDot =>
    if c.isDigit then
      let r := scanNum cs hasDot
      (c :: r.1, r.2)
    else if c = '.' && !hasDot then
      let r := scanNum cs true
      (c :: r.1, r.2)
    else ([], c :: cs)

/-- Value of a digit character. -/
def digitVal (c : Char) : ℕ := c.toNat - 48

/-- Value of a digit run. -/
def digitsVal (cs : List Char) : ℕ :=
  cs.foldl (fun a c => 10 * a + digitVal c) 0

/-- `parseFloat` on a scanned numeric run (digits with at most one `'.'`),
as an exact rational. -/
def parseDecimal (run : List Char) : ℚ :=
  let intPart := run.takeWhile (fun c => c ≠ '.')
  let fracPart := (run.dropWhile (fun c => c ≠ '.')).drop 1
  (digitsVal intPart : ℚ) + (digitsVal fracPart : ℚ) / (10 : ℚ) ^ fracPart.length

theorem scanNum_length_le (cs : List Char) (b : Bool) :
    (scanNum cs b).2.length ≤ cs.length := by
  induction cs generalizing b with
  | nil => simp [scanNum]
  | cons c cs ih =>
    simp only [scanNum]
    split
    · simpa using Nat.le_succ_of_le (ih b)
    · split
      · simpa using Nat.le_succ_of_le (ih true)
      · simp

/-- When a numeric run actually starts at `c` (a digit, or a dot with the
dot-flag still clear), the scan consumes at least that first character. -/
theorem scanNum_cons_tail_le (c : Char) (rest : List Char)
    (h : c.isDigit = true ∨ c = '.') :
    (scanNum (c :: rest) false).2.length ≤ rest.length := by
  rcases h with hd | hd
  · simpa [scanNum, hd] using scanNum_length_le rest false
  · subst hd
    simp only [scanNum]
    have hnd : ¬ ('.'.isDigit = true) := by decide
    simpa [hnd] using scanNum_length_le rest true

/-- The main scan loop of `tokenize` (over whitespace-stripped characters). -/
def tokenizeGo (cs : List Char) : Except CalcError (List Token) :=
  match cs with
  | [] => .ok []
  | c :: rest =>
    if h : c.isDigit || (c = '.' && (match rest with
        | d :: _ => d.isDigit
        | [] => false)) then
      let r := scanNum (c :: rest) false
      match tokenizeGo r.2 with
      | .ok ts => .ok (Token.num (parseDecimal r.1) :: ts)
      | .error e => .error e
    else if c = '+' then (tokenizeGo rest).map (Token.plus :: ·)
    else if c = '-' then (tokenizeGo rest).map (Token.minus :: ·)
    else if c = '*' then (tokenizeGo rest).map (Token.times :: ·)
    else if c = '/' then (tokenizeGo rest).map (Token.div :: ·)
    else if c = '(' then (tokenizeGo rest).map (Token.lparen :: ·)
    else if c = ')' then (tokenizeGo rest).map (Token.rparen :: ·)
    else .error .invalidCharacter
termination_by cs.length
decreasing_by
  all_goals simp only [List.length_cons]
  · have hd : c.isDigit = true ∨ c = '.' := by
      rcases Bool.or_eq_true_iff.mp h with h1 | h1
      · exact Or.inl h1
      · exact Or.inr (by
          rcases Bool.and_eq_true_iff.mp h1 with ⟨h2, _⟩
          exact decide_eq_true_eq.mp h2)
    have := scanNum_cons_tail_le c rest hd
    omega
  all_goals omega

/-- `tokenize` from the source: strip whitespace, fail with
`Malformed expression` on empty input, then scan. -/
def tokenize (s : String) : Except CalcError (List Token) :=
  let cs := stripWs s.toList
  if cs.isEmpty then .error .malformedExpression else tokenizeGo cs

/-! ## Unary-minus normalizer -/

/-- The lookbehind test of `handleUnaryMinus`: a `-` becomes `NEG` when it is
the first token (`prev = none`) or the previous (original) token is `(`, `+`,
`-`, `*` or `/`. -/
def negTrigger : Option Token → Bool
  | none => true
  | some t =>
    t = Token.lparen || t = Token.plus || t = Token.minus ||
    t = Token.times || t = Token.div

/-- The loop of `handleUnaryMinus`; `prev` is the previous token of the
*input* sequence (the source inspects `tokens[i-1]`, not `result[i-1]`). -/
def humGo : Option Token → List Token → List Token
  | _, [] => []
  | prev, t :: ts =>
    (if t = Token.minus && negTrigger prev then Token.neg else t) :: humGo (some t) ts

/-- `handleUnaryMinus` from the source. -/
def handleUnaryMinus (ts : List Token) : List Token :=
  humGo none ts

/-! ## Shunting-yard converter -/

/-- The operator-case inner `while` of `shuntingYard`: pop stack entries while
the top is not `(`, is an operator, and has precedence ≥ the incoming
token's.  Returns (popped entries in pop order, remaining stack); the stack's
top is the head of the list. -/
def popGE (t : Token) : List Token → List Token × List Token
  | [] => ([], [])
  | s :: rest =>
    if s ≠ Token.lparen && isOperator s && precedence t ≤ precedence s then
      let r := popGE t rest
      (s :: r.1, r.2)
    else ([], s :: rest)

/-- The right-parenthesis `while` of `shuntingYard`: pop until a `(` is found
and discarded (`none` when the stack runs out first). -/
def popUntilLParen : List Token → Option (List Token × List Token)
  | [] => none
  | s :: rest =>
    if s = Token.lparen then some ([], rest)
    else
      match popUntilLParen rest with
      | some p => some (s :: p.1, p.2)
      | none => none

/-- The final drain of `shuntingYard`: pop remaining operators to the output,
failing if a `(` or `)` is found. -/
def syDrain (out : List Token) : List Token → Except CalcError (List Token)
  | [] => .ok out
  | s :: rest =>
    if s = Token.lparen || s = Token.rparen then .error .mismatchedParentheses
    else syDrain (out ++ [s]) rest

/-- The token loop of `shuntingYard` over (output queue, operator stack). -/
def syGo : List Token → List Token → List Token → Except CalcError (List Token)
  | [], out, stack => syDrain out stack
  | t :: ts, out, stack =>
    match t with
    | .num v => syGo ts (out ++ [Token.num v]) stack
    | .lparen => syGo ts out (Token.lparen :: stack)
    | .rparen =>
      match popUntilLParen stack with
      | some p => syGo ts (out ++ p.1) p.2
      | none => .error .mismatchedParentheses
    | op =>
      let r := popGE op stack
      syGo ts (out ++ r.1) (op :: r.2)

/-- `shuntingYard` from the source. -/
def shuntingYard (ts : List Token) : Except CalcError (List Token) :=
  syGo ts [] []

/-- `toRPN` from the source. -/
def toRPN (ts : List Token) : Except CalcError (List Token) :=
  shuntingYard (handleUnaryMinus ts)

/-! ## Postfix evaluator -/

/-- `applyOperator` from the source.  `operands` is the JS array argument:
for binary operators the call is `applyOperator(token, [right, left])`, so
index 0 is the right operand and index 1 the left; for `NEG` it is
`[operand]`.  (A JS out-of-range index would yield `undefined`; every call
site passes the exact arity, and the embedding uses `getD _ 0`.) -/
def applyOperator (op : Token) (operands : List ℚ) : Except CalcError ℚ :=
  match op with
  | .plus => .ok (operands.getD 1 0 + operands.getD 0 0)
  | .minus => .ok (operands.getD 1 0 - operands.getD 0 0)
  | .times => .ok (operands.getD 1 0 * operands.getD 0 0)
  | .div =>
    if operands.getD 0 0 = 0 then .error .divisionByZero
    else .ok (operands.getD 1 0 / operands.getD 0 0)
  | .neg => .ok (-(operands.getD 0 0))
  | _ => .error .malformedExpression

/-- The token loop of `evalRPN`; the head of `stack` is its top (the most
recently pushed value). -/
def evalGo : List ℚ → List Token → Except CalcError ℚ
  | stack, [] =>
    match stack with
    | [v] => .ok v
    | _ => .error .malformedExpression
  | stack, t :: ts =>
    match t with
    | .num v => evalGo (v :: stack) ts
    | .neg =>
      match stack with
      | x :: rest =>
        match applyOperator Token.neg [x] with
        | .ok r => evalGo (r :: rest) ts
        | .error e => .error e
      | [] => .error .malformedExpression
    | .plus | .minus | .times | .div =>
      match stack with
      | right :: left :: rest =>
        match applyOperator t [right, left] with
        | .ok r => evalGo (r :: rest) ts
        | .error e => .error e
      | _ => .error .malformedExpression
    | _ => evalGo stack ts

/-- `evalRPN` from the source. -/
def evalRPN (rpn : List Token) : Except CalcError ℚ :=
  evalGo [] rpn

/-! ## Result formatter -/

/-- Decimal digits of a fraction `0 ≤ x < 1`, up to `fuel` digits. -/
def fracDigits : ℚ → Nat → List Char
  | _, 0 => []
  | x, n + 1 =>
    if x = 0 then []
    else
      let d : ℤ := ⌊x * 10⌋
      Char.ofNat (48 + d.toNat) :: fracDigits (x * 10 - (d : ℚ)) n

/-- Models JS `String(x)` for a non-integer value: sign, integer part, `'.'`
and the decimal expansion.  The source formats an IEEE-754 double (shortest
round-trip representation); this rational embedding renders the exact decimal
expansion truncated to 17 fractional digits. -/
def ratToString (x : ℚ) : String :=
  let a := if x < 0 then -x else x
  let s := toString (⌊a⌋ : ℤ) ++ "." ++ String.mk (fracDigits (a - (⌊a⌋ : ℚ)) 17)
  if x < 0 then "-" ++ s else s

/-- `formatResult` from the source: integer-valued results are rendered via
`String(Math.floor(x))`, others via `String(x)`. -/
def formatResult (x : ℚ) : String :=
  if x = (⌊x⌋ : ℚ) then toString (⌊x⌋ : ℤ) else ratToString x

/-! ## Top-level orchestration -/

/-- The `try` block of `calculate`: the stage pipeline, with the first thrown
error propagated. -/
def calcValue (s : String) : Except CalcError ℚ :=
  match tokenize s with
  | .error e => .error e
  | .ok ts =>
    match toRPN ts with
    | .error e => .error e
    | .ok rpn => evalRPN rpn

/-- `calculate` from the source: run the pipeline, formatting a success and
converting a thrown error into `"ERROR: " + message`.  (`formatResult` is
total, so applying it inside or outside the `try` is equivalent.) -/
def calculate (s : String) : String :=
  match calcValue s with
  | .ok v => formatResult v
  | .error e => "ERROR: " ++ e.message

/-! ## Basic facts about the embedded functions -/

theorem scanNum_split (cs : List Char) (b : Bool) :
    (scanNum cs b).1 ++ (scanNum cs b).2 = cs := by
  induction cs generalizing b with
  | nil => rfl
  | cons c cs ih =>
    simp only [scanNum]
    split
    · simpa using ih _
    · split
      · simpa using ih _
      · rfl

theorem scanNum_chars (cs : List Char) (b : Bool) :
    ∀ c ∈ (scanNum cs b).1, c.isDigit = true ∨ c = '.' := by
  induction cs generalizing b with
  | nil => intro d hd; simp [scanNum] at hd
  | cons c cs ih =>
    intro d hd
    simp only [scanNum] at hd
    split at hd
    · rcases (List.mem_cons).mp hd with h | h
      · subst h; left; assumption
      · exact ih _ _ h
    · split at hd
      · rcases (List.mem_cons).mp hd with h | h
        · subst h
          right
          rename_i hnd hcond
          exact of_decide_eq_true (Bool.and_eq_true_iff.mp hcond).1
        · exact ih _ _ h
      · simp at hd

theorem scanNum_dot_count (cs : List Char) (b : Bool) :
    (scanNum cs b).1.count '.' ≤ if b then 0 else 1 := by
  induction cs generalizing b with
  | nil => simp [scanNum]
  | cons c cs ih =>
    simp only [scanNum]
    split
    · rename_i hdig
      have hc : (c == '.') = false := by
        rcases hb : (c == '.') with _ | _
        · rfl
        · rw [eq_of_beq hb] at hdig
          exact absurd hdig (by decide)
      simp only [List.count_cons, hc]
      simpa using ih b
    · split
      · rename_i hcond
        have hb : b = false := by
          have := (Bool.and_eq_true_iff.mp hcond).2
          simpa using this
        subst hb
        simp only [List.count_cons]
        have h0 : (scanNum cs true).1.count '.' ≤ 0 := by simpa using ih true
        have h1 : (if (c == '.') = true then 1 else 0) ≤ 1 := by split <;> omega
        simp only [Bool.false_eq_true, if_false]
        omega
      · simp

/-! ## Tokenizer lemmas -/

/-- The character set `[0-9.+\-*/()]` of the specification. -/
def validChar (c : Char) : Bool :=
  c.isDigit || c = '.' || c = '+' || c = '-' || c = '*' ||
    c = '/' || c = '(' || c = ')'

theorem exceptMap_ok {ε α β : Type} {f : α → β} {x : Except ε α} {b : β}
    (h : x.map f = .ok b) : ∃ a, x = .ok a ∧ f a = b := by
  cases x with
  | ok a => exact ⟨a, rfl, by simpa [Except.map] using h⟩
  | error e => simp [Except.map] at h

theorem exceptMap_error {ε α β : Type} {f : α → β} {x : Except ε α} {e : ε}
    (h : x.map f = .error e) : x = .error e := by
  cases x with
  | ok a => simp [Except.map] at h
  | error e' => simpa [Except.map] using h

theorem tokenizeGo_nil : tokenizeGo [] = .ok [] := by
  rw [tokenizeGo.eq_def]

theorem tokenizeGo_cons (c : Char) (rest : List Char) :
    tokenizeGo (c :: rest) =
      if h : c.isDigit || (c = '.' && (match rest with
          | d :: _ => d.isDigit
          | [] => false)) then
        match tokenizeGo (scanNum (c :: rest) false).2 with
        | .ok ts => .ok (Token.num (parseDecimal (scanNum (c :: rest) false).1) :: ts)
        | .error e => .error e
      else if c = '+' then (tokenizeGo rest).map (Token.plus :: ·)
      else if c = '-' then (tokenizeGo rest).map (Token.minus :: ·)
      else if c = '*' then (tokenizeGo rest).map (Token.times :: ·)
      else if c = '/' then (tokenizeGo rest).map (Token.div :: ·)
      else if c = '(' then (tokenizeGo rest).map (Token.lparen :: ·)
      else if c = ')' then (tokenizeGo rest).map (Token.rparen :: ·)
      else .error .invalidCharacter := by
  rw [tokenizeGo.eq_def]

theorem tokenizeGo_ok_chars :
    ∀ (n : ℕ) (cs : List Char), cs.length ≤ n → ∀ ts, tokenizeGo cs = .ok ts →
      ∀ c ∈ cs, validChar c = true := by
  intro n
  induction n with
  | zero =>
    intro cs hlen ts htok c hc
    have h0 : cs = [] := List.length_eq_zero.mp (Nat.le_zero.mp hlen)
    subst h0; simp at hc
  | succ n ih =>
    intro cs hlen ts htok d hd
    match cs with
    | [] => simp at hd
    | c :: rest =>
      rw [tokenizeGo_cons] at htok
      simp only [List.length_cons, Nat.add_le_add_iff_right] at hlen
      split at htok
      · rename_i hguard
        have hdig : c.isDigit = true ∨ c = '.' := by
          rcases Bool.or_eq_true_iff.mp hguard with h1 | h1
          · exact Or.inl h1
          · exact Or.inr (decide_eq_true_eq.mp (Bool.and_eq_true_iff.mp h1).1)
        split at htok
        · rename_i ts' hrec
          rw [← scanNum_split (c :: rest) false] at hd
          rcases List.mem_append.mp hd with h | h
          · rcases scanNum_chars _ _ _ h with h2 | h2 <;> simp [validChar, h2]
          · have hle : (scanNum (c :: rest) false).2.length ≤ n :=
              le_trans (scanNum_cons_tail_le c rest hdig) hlen
            exact ih _ hle ts' hrec d h
        · exact absurd htok (by simp)
      · split at htok
        case isTrue hc =>
          obtain ⟨ts', hts, _⟩ := exceptMap_ok htok
          rcases List.mem_cons.mp hd with h | h
          · subst h; subst hc; decide
          · exact ih rest hlen ts' hts d h
        case isFalse =>
          split at htok
          case isTrue hc =>
            obtain ⟨ts', hts, _⟩ := exceptMap_ok htok
            rcases List.mem_cons.mp hd with h | h
            · subst h; subst hc; decide
            · exact ih rest hlen ts' hts d h
          case isFalse =>
            split at htok
            case isTrue hc =>
              obtain ⟨ts', hts, _⟩ := exceptMap_ok htok
              rcases List.mem_cons.mp hd with h | h
              · subst h; subst hc; decide
              · exact ih rest hlen ts' hts d h
            case isFalse =>
              split at htok
              case isTrue hc =>
                obtain ⟨ts', hts, _⟩ := exceptMap_ok htok
                rcases List.mem_cons.mp hd with h | h
                · subst h; subst hc; decide
                · exact ih rest hlen ts' hts d h
              case isFalse =>
                split at htok
                case isTrue hc =>
                  obtain ⟨ts', hts, _⟩ := exceptMap_ok htok
                  rcases List.mem_cons.mp hd with h | h
                  · subst h; subst hc; decide
                  · exact ih rest hlen ts' hts d h
                case isFalse =>
                  split at htok
                  case isTrue hc =>
                    obtain ⟨ts', hts, _⟩ := exceptMap_ok htok
                    rcases List.mem_cons.mp hd with h | h
                    · subst h; subst hc; decide
                    · exact ih rest hlen ts' hts d h
                  case isFalse => exact absurd htok (by simp)

theorem tokenizeGo_error :
    ∀ (n : ℕ) (cs : List Char), cs.length ≤ n → ∀ e, tokenizeGo cs = .error e →
      e = .invalidCharacter := by
  intro n
  induction n with
  | zero =>
    intro cs hlen e htok
    have h0 : cs = [] := List.length_eq_zero.mp (Nat.le_zero.mp hlen)
    subst h0
    rw [tokenizeGo_nil] at htok
    exact absurd htok (by simp)
  | succ n ih =>
    intro cs hlen e htok
    match cs with
    | [] =>
      rw [tokenizeGo_nil] at htok
      exact absurd htok (by simp)
    | c :: rest =>
      rw [tokenizeGo_cons] at htok
      simp only [List.length_cons, Nat.add_le_add_iff_right] at hlen
      split at htok
      · rename_i hguard
        have hdig : c.isDigit = true ∨ c = '.' := by
          rcases Bool.or_eq_true_iff.mp hguard with h1 | h1
          · exact Or.inl h1
          · exact Or.inr (decide_eq_true_eq.mp (Bool.and_eq_true_iff.mp h1).1)
        split at htok
        · exact absurd htok (by simp)
        · rename_i e' hrec
          have hle : (scanNum (c :: rest) false).2.length ≤ n :=
            le_trans (scanNum_cons_tail_le c rest hdig) hlen
          have h1 := ih _ hle e' hrec
          have h2 : e = e' := by
            injection htok with h3
            exact h3.symm
          rw [h2, h1]
      · split at htok
        case isTrue hc => exact ih rest hlen e (exceptMap_error htok)
        case isFalse =>
          split at htok
          case isTrue hc => exact ih rest hlen e (exceptMap_error htok)
          case isFalse =>
            split at htok
            case isTrue hc => exact ih rest hlen e (exceptMap_error htok)
            case isFalse =>
              split at htok
              case isTrue hc => exact ih rest hlen e (exceptMap_error htok)
              case isFalse =>
                split at htok
                case isTrue hc => exact ih rest hlen e (exceptMap_error htok)
                case isFalse =>
                  split at htok
                  case isTrue hc => exact ih rest hlen e (exceptMap_error htok)
                  case isFalse =>
                    injection htok with h3
                    exact h3.symm

theorem tokenize_empty {s : String} (h : stripWs s.toList = []) :
    tokenize s = .error .malformedExpression := by
  have h' : stripWs s.data = [] := h
  rw [tokenize]
  simp [h']

theorem tokenize_invalid {s : String}
    (h : ∃ c ∈ stripWs s.toList, validChar c = false) :
    tokenize s = .error .invalidCharacter := by
  obtain ⟨c, hc, hv⟩ := h
  have hne : (stripWs s.toList).isEmpty = false := by
    cases hcs : stripWs s.toList with
    | nil => rw [hcs] at hc; simp at hc
    | cons a l => simp
  rw [tokenize]
  simp only [hne, Bool.false_eq_true, if_false]
  cases htg : tokenizeGo (stripWs s.toList) with
  | ok ts =>
    have := tokenizeGo_ok_chars (stripWs s.toList).length _ le_rfl ts htg c hc
    rw [this] at hv
    exact absurd hv (by simp)
  | error e =>
    rw [tokenizeGo_error (stripWs s.toList).length _ le_rfl e htg]

/-! ## Unary-minus normalizer lemmas -/

theorem humGo_length (prev : Option Token) (ts : List Token) :
    (humGo prev ts).length = ts.length := by
  induction ts generalizing prev with
  | nil => rfl
  | cons t ts ih => simp [humGo, ih]

theorem humGo_get? (ts : List Token) (prev : Option Token) (i : ℕ) :
    (humGo prev ts).get? i = (ts.get? i).map
      (fun t => if t = Token.minus && negTrigger (if i = 0 then prev else ts.get? (i - 1))
        then Token.neg else t) := by
  induction ts generalizing prev i with
  | nil => simp [humGo]
  | cons t ts ih =>
    cases i with
    | zero => simp [humGo]
    | succ n =>
      simp only [humGo, List.get?_cons_succ]
      rw [ih (some t) n]
      have hprev : (if n = 0 then some t else ts.get? (n - 1)) = (t :: ts).get? n := by
        cases n with
        | zero => simp
        | succ m => simp
      simp only [hprev]
      simp

/-- The per-position rewriting rule of `handleUnaryMinus`. -/
theorem handleUnaryMinus_get? (ts : List Token) (i : ℕ) :
    (handleUnaryMinus ts).get? i = (ts.get? i).map
      (fun t => if t = Token.minus && negTrigger (if i = 0 then none else ts.get? (i - 1))
        then Token.neg else t) :=
  humGo_get? ts none i

/-- Context tracking for `humGo` across an append: the previous token seen
when entering the second half. -/
def lastCtx (prev : Option Token) (a : List Token) : Option Token :=
  match a.getLast? with
  | some t => some t
  | none => prev

theorem lastCtx_cons (prev : Option Token) (t : Token) (a : List Token) :
    lastCtx prev (t :: a) = lastCtx (some t) a := by
  cases a with
  | nil => simp [lastCtx]
  | cons b l =>
    simp only [lastCtx, List.getLast?_cons_cons]
    cases hl : (b :: l).getLast? with
    | some x => rfl
    | none =>
      exfalso
      have hne : (b :: l) ≠ [] := by simp
      rw [← List.getLast?_isSome, hl] at hne
      simp at hne

theorem humGo_append (a b : List Token) (prev : Option Token) :
    humGo prev (a ++ b) = humGo prev a ++ humGo (lastCtx prev a) b := by
  induction a generalizing prev with
  | nil => simp [humGo, lastCtx]
  | cons t a ih => simp [humGo, ih (some t), lastCtx_cons]

/-! ## Shunting-yard stack lemmas -/

theorem isOperator_not_paren {q : Token} (h : isOperator q = true) :
    q ≠ Token.lparen ∧ q ≠ Token.rparen := by
  cases q <;> simp_all [isOperator]

/-- The stack-top precondition under which processing an expression leaves
the pre-existing stack untouched: the stack is empty, or its top is `(` or an
operator of precedence below `p`. -/
def topBelow (p : Nat) : List Token → Prop
  | [] => True
  | s :: _ => s = Token.lparen ∨ (isOperator s = true ∧ precedence s < p)

theorem topBelow_mono {p q : Nat} (h : p ≤ q) :
    ∀ {st : List Token}, topBelow p st → topBelow q st := by
  intro st hst
  cases st with
  | nil => trivial
  | cons s rest =>
    rcases hst with h1 | ⟨h1, h2⟩
    · exact Or.inl h1
    · exact Or.inr ⟨h1, lt_of_lt_of_le h2 h⟩

theorem popGE_flush (t : Token) (pend st : List Token)
    (h1 : ∀ q ∈ pend, isOperator q = true ∧ precedence t ≤ precedence q)
    (h2 : topBelow (precedence t) st) :
    popGE t (pend ++ st) = (pend, st) := by
  induction pend with
  | nil =>
    cases st with
    | nil => rfl
    | cons s rest =>
      rcases h2 with h | ⟨hop, hlt⟩
      · subst h
        simp [popGE]
      · simp only [List.nil_append, popGE]
        split
        · rename_i hcond
          exfalso
          have hle := of_decide_eq_true (Bool.and_eq_true_iff.mp hcond).2
          omega
        · rfl
  | cons q pend ih =>
    obtain ⟨hop, hle⟩ := h1 q (List.mem_cons_self q pend)
    have hne := (isOperator_not_paren hop).1
    simp only [List.cons_append, popGE]
    rw [if_pos]
    · have hrec := ih (fun q hq => h1 q (List.mem_cons_of_mem _ hq))
      simp [hrec]
    · simp [hne, hop, hle]

theorem popUntilLParen_flush (pend st : List Token)
    (h : ∀ q ∈ pend, isOperator q = true) :
    popUntilLParen (pend ++ Token.lparen :: st) = some (pend, st) := by
  induction pend with
  | nil => simp [popUntilLParen]
  | cons q pend ih =>
    have hne := (isOperator_not_paren (h q (List.mem_cons_self q pend))).1
    simp only [List.cons_append, popUntilLParen]
    rw [if_neg hne]
    simp only [List.append_eq]
    rw [ih (fun q hq => h q (List.mem_cons_of_mem _ hq))]

theorem syDrain_ops (out pend : List Token) (h : ∀ q ∈ pend, isOperator q = true) :
    syDrain out pend = .ok (out ++ pend) := by
  induction pend generalizing out with
  | nil => simp [syDrain]
  | cons q pend ih =>
    obtain ⟨h1, h2⟩ := isOperator_not_paren (h q (List.mem_cons_self q pend))
    simp only [syDrain]
    rw [if_neg (by simp [h1, h2])]
    rw [ih (out ++ [q]) (fun q hq => h q (List.mem_cons_of_mem _ hq))]
    simp

/-! ## Well-formed expressions: reference grammar and semantics -/

/-- Binary operators of the well-formed-expression grammar. -/
inductive BOp where
  | add | sub | mul | div
deriving DecidableEq, Repr

/-- The token of a binary operator. -/
def BOp.tok : BOp → Token
  | .add => Token.plus
  | .sub => Token.minus
  | .mul => Token.times
  | .div => Token.div

/-- Standard precedence of a binary operator. -/
def BOp.prec : BOp → Nat
  | .add | .sub => 1
  | .mul | .div => 2

/-- ASTs of well-formed expressions over integer literals and `+ - * /`. -/
inductive Expr where
  | lit (n : ℕ)
  | bin (o : BOp) (l r : Expr)
deriving DecidableEq, Repr

/-- Postfix (RPN) form of an expression. -/
def Expr.rpn : Expr → List Token
  | .lit n => [Token.num (n : ℚ)]
  | .bin o l r => l.rpn ++ r.rpn ++ [o.tok]

/-- Specification-side reference semantics: the value of an expression under
standard infix arithmetic (exact, over ℚ), failing on division by zero. -/
def evalExpr : Expr → Except CalcError ℚ
  | .lit n => .ok (n : ℚ)
  | .bin o l r =>
    match evalExpr l with
    | .error e => .error e
    | .ok vl =>
      match evalExpr r with
      | .error e => .error e
      | .ok vr =>
        match o with
        | .add => .ok (vl + vr)
        | .sub => .ok (vl - vr)
        | .mul => .ok (vl * vr)
        | .div => if vr = 0 then .error .divisionByZero else .ok (vl / vr)

/-- `Reads ts p e`: the token list `ts` is a well-formed infix rendering of
the expression `e` in a context of minimum precedence `p`, under the standard
reading — `*`, `/` bind tighter than `+`, `-`, equal-precedence operators
associate to the left, and parentheses reset the context (the left operand of
an operator may sit at the operator's own precedence, the right operand must
sit strictly above it). -/
inductive Reads : List Token → Nat → Expr → Prop where
  | lit (n : ℕ) (p : Nat) : Reads [Token.num (n : ℚ)] p (Expr.lit n)
  | paren {ts : List Token} {e : Expr} (p : Nat) :
      Reads ts 1 e → Reads (Token.lparen :: ts ++ [Token.rparen]) p e
  | bin {o : BOp} {l r : Expr} {ls rs : List Token} {p : Nat} :
      p ≤ o.prec → Reads ls o.prec l → Reads rs (o.prec + 1) r →
      Reads (ls ++ o.tok :: rs) p (Expr.bin o l r)

theorem BOp.isOperator_tok (o : BOp) : isOperator o.tok = true := by
  cases o <;> rfl

theorem BOp.precedence_tok (o : BOp) : precedence o.tok = o.prec := by
  cases o <;> rfl

/-- Step lemma: processing an operator token pops by precedence, then pushes
the operator. -/
theorem syGo_op (t : Token) (ht : isOperator t = true)
    (ts out stack : List Token) :
    syGo (t :: ts) out stack =
      syGo ts (out ++ (popGE t stack).1) (t :: (popGE t stack).2) := by
  cases t <;> simp_all [isOperator, syGo]

/-- Main invariant of the shunting-yard loop on a well-formed rendering:
processing the tokens of `e` from a stack whose top is below the context
precedence emits exactly `e`'s RPN, except for a trailing block of pending
operators (of precedence ≥ the context) left on the stack. -/
theorem syGo_reads {ts : List Token} {p : Nat} {e : Expr} (h : Reads ts p e) :
    ∀ rest out st, topBelow p st →
      ∃ pend out₁,
        syGo (ts ++ rest) out st = syGo rest out₁ (pend ++ st) ∧
        out₁ ++ pend = out ++ e.rpn ∧
        ∀ q ∈ pend, isOperator q = true ∧ p ≤ precedence q := by
  induction h with
  | lit n p =>
    intro rest out st hst
    refine ⟨[], out ++ [Token.num (n : ℚ)], ?_, by simp [Expr.rpn], by simp⟩
    simp [syGo]
  | paren p hin ih =>
    rename_i inner ein
    intro rest out st hst
    obtain ⟨pend, out₁, heq, hout, hops⟩ :=
      ih (Token.rparen :: rest) out (Token.lparen :: st) (Or.inl rfl)
    refine ⟨[], out₁ ++ pend, ?_, by simpa using hout, by simp⟩
    have h1 : (Token.lparen :: inner ++ [Token.rparen]) ++ rest =
        Token.lparen :: (inner ++ (Token.rparen :: rest)) := by simp
    rw [h1]
    show syGo (inner ++ (Token.rparen :: rest)) out (Token.lparen :: st) = _
    rw [heq]
    show (match popUntilLParen (pend ++ Token.lparen :: st) with
      | some p => syGo rest (out₁ ++ p.1) p.2
      | none => .error .mismatchedParentheses) = _
    rw [popUntilLParen_flush pend st (fun q hq => (hops q hq).1)]
    simp
  | bin hp hl hr ihl ihr =>
    rename_i o l r ls rs p
    intro rest out st hst
    obtain ⟨pl, o1, heq1, hout1, hops1⟩ :=
      ihl (o.tok :: (rs ++ rest)) out st (topBelow_mono hp hst)
    obtain ⟨pr, o2, heq2, hout2, hops2⟩ :=
      ihr rest (o1 ++ pl) (o.tok :: st)
        (Or.inr ⟨o.isOperator_tok, by rw [o.precedence_tok]; omega⟩)
    refine ⟨pr ++ [o.tok], o2, ?_, ?_, ?_⟩
    · have h1 : (ls ++ o.tok :: rs) ++ rest = ls ++ (o.tok :: (rs ++ rest)) := by simp
      rw [h1, heq1, syGo_op o.tok o.isOperator_tok]
      have hflush : popGE o.tok (pl ++ st) = (pl, st) := by
        apply popGE_flush
        · intro q hq
          obtain ⟨hq1, hq2⟩ := hops1 q hq
          exact ⟨hq1, by rw [o.precedence_tok]; exact hq2⟩
        · rw [o.precedence_tok]
          exact topBelow_mono hp hst
      rw [hflush, heq2]
      simp
    · have hmid : o2 ++ pr = out ++ l.rpn ++ r.rpn := by
        rw [hout2, hout1]
      calc o2 ++ (pr ++ [o.tok]) = (o2 ++ pr) ++ [o.tok] := by simp
        _ = (out ++ l.rpn ++ r.rpn) ++ [o.tok] := by rw [hmid]
        _ = out ++ (l.rpn ++ r.rpn ++ [o.tok]) := by simp
        _ = out ++ (Expr.bin o l r).rpn := rfl
    · intro q hq
      rcases List.mem_append.mp hq with h1 | h1
      · obtain ⟨hq1, hq2⟩ := hops2 q h1
        exact ⟨hq1, by omega⟩
      · have hq1 : q = o.tok := by simpa using h1
        subst hq1
        exact ⟨o.isOperator_tok, by rw [o.precedence_tok]; exact hp⟩

/-- On a well-formed rendering, `shuntingYard` succeeds and emits exactly the
postfix form of the expression. -/
theorem shuntingYard_reads {ts : List Token} {e : Expr} (h : Reads ts 1 e) :
    shuntingYard ts = .ok e.rpn := by
  obtain ⟨pend, out₁, heq, hout, hops⟩ := syGo_reads h [] [] [] trivial
  have h0 : syGo ts [] [] = syGo [] out₁ pend := by simpa using heq
  show syGo ts [] [] = _
  rw [h0]
  show syDrain out₁ pend = _
  rw [syDrain_ops out₁ pend (fun q hq => (hops q hq).1), hout]
  simp

/-- Step lemma: a binary operator pops the right operand first, then the
left, and applies `left OP right`. -/
theorem evalGo_binop (t : Token)
    (ht : t = Token.plus ∨ t = Token.minus ∨ t = Token.times ∨ t = Token.div)
    (right left : ℚ) (rest : List ℚ) (ts : List Token) :
    evalGo (right :: left :: rest) (t :: ts) =
      match applyOperator t [right, left] with
      | .ok v => evalGo (v :: rest) ts
      | .error e => .error e := by
  rcases ht with h | h | h | h <;> subst h <;> rfl

/-- The postfix evaluator computes the reference semantics on the postfix
form of any expression, compositionally. -/
theorem evalGo_rpn (e : Expr) : ∀ (st : List ℚ) (rest : List Token),
    evalGo st (e.rpn ++ rest) =
      match evalExpr e with
      | .ok v => evalGo (v :: st) rest
      | .error er => .error er := by
  induction e with
  | lit n => intro st rest; rfl
  | bin o l r ihl ihr =>
    intro st rest
    have h1 : (Expr.bin o l r).rpn ++ rest = l.rpn ++ (r.rpn ++ (o.tok :: rest)) := by
      simp [Expr.rpn]
    rw [h1, ihl]
    cases hel : evalExpr l with
    | error e1 => simp [evalExpr, hel]
    | ok vl =>
      show evalGo (vl :: st) (r.rpn ++ (o.tok :: rest)) = _
      rw [ihr]
      cases her : evalExpr r with
      | error e2 => simp [evalExpr, hel, her]
      | ok vr =>
        show evalGo (vr :: vl :: st) (o.tok :: rest) = _
        rw [evalGo_binop o.tok (by cases o <;> simp [BOp.tok]) vr vl st rest]
        cases o with
        | add => simp [evalExpr, hel, her, applyOperator, BOp.tok]
        | sub => simp [evalExpr, hel, her, applyOperator, BOp.tok]
        | mul => simp [evalExpr, hel, her, applyOperator, BOp.tok]
        | div =>
          by_cases hvr : vr = 0 <;>
            simp [evalExpr, hel, her, applyOperator, BOp.tok, hvr]

theorem evalRPN_rpn (e : Expr) : evalRPN e.rpn = evalExpr e := by
  have h := evalGo_rpn e [] []
  simp only [List.append_nil] at h
  cases he : evalExpr e with
  | ok v =>
    rw [he] at h
    simpa [evalRPN, evalGo] using h
  | error er =>
    rw [he] at h
    simpa [evalRPN] using h

/-- On a well-formed rendering no `-` token is in unary position, so the
normalizer leaves the token list unchanged. -/
theorem Reads_humGo {ts : List Token} {p : Nat} {e : Expr} (h : Reads ts p e) :
    (∀ prev, humGo prev ts = ts) ∧
      ∃ t, ts.getLast? = some t ∧ (t = Token.rparen ∨ ∃ v, t = Token.num v) := by
  induction h with
  | lit n p =>
    refine ⟨fun prev => ?_, ⟨Token.num (n : ℚ), by simp, Or.inr ⟨(n : ℚ), rfl⟩⟩⟩
    simp [humGo]
  | paren p hin ih =>
    rename_i inner ein
    obtain ⟨hall, t, hlast, ht⟩ := ih
    constructor
    · intro prev
      simp only [humGo, List.append_eq]
      rw [humGo_append inner [Token.rparen] (some Token.lparen)]
      rw [hall (some Token.lparen)]
      simp [humGo]
    · refine ⟨Token.rparen, ?_, Or.inl rfl⟩
      have h1 : Token.lparen :: inner ++ [Token.rparen] =
          (Token.lparen :: inner) ++ [Token.rparen] := by simp
      rw [h1, List.getLast?_concat]
  | bin hp hl hr ihl ihr =>
    rename_i o l r ls rs p
    obtain ⟨halll, tl, hlastl, htl⟩ := ihl
    obtain ⟨hallr, tr, hlastr, htr⟩ := ihr
    constructor
    · intro prev
      rw [humGo_append ls (o.tok :: rs) prev, halll prev]
      have hctx : lastCtx prev ls = some tl := by simp [lastCtx, hlastl]
      rw [hctx]
      simp only [humGo]
      rw [hallr (some o.tok)]
      have hnt : negTrigger (some tl) = false := by
        rcases htl with h1 | ⟨v, h1⟩ <;> subst h1 <;> rfl
      simp [hnt]
    · refine ⟨tr, ?_, htr⟩
      rw [List.getLast?_append]
      have h2 : (o.tok :: rs).getLast? = some tr := by
        cases rs with
        | nil => simp at hlastr
        | cons a lrs => rw [List.getLast?_cons_cons, hlastr]
      rw [h2]
      rfl

theorem handleUnaryMinus_reads {ts : List Token} {e : Expr} (h : Reads ts 1 e) :
    handleUnaryMinus ts = ts :=
  (Reads_humGo h).1 none

/-- End-to-end correctness on well-formed expressions: `calculate` formats
exactly the standard-arithmetic value. -/
theorem calculate_wellFormed {s : String} {ts : List Token} {e : Expr} {v : ℚ}
    (h1 : tokenize s = .ok ts) (h2 : Reads ts 1 e) (h3 : evalExpr e = .ok v) :
    calculate s = formatResult v := by
  have hrpn : toRPN ts = .ok e.rpn := by
    rw [toRPN, handleUnaryMinus_reads h2, shuntingYard_reads h2]
  have hval : calcValue s = .ok v := by
    simp only [calcValue, h1, hrpn, evalRPN_rpn, h3]
  simp only [calculate, hval]

/-! ## Parenthesis balance and the mismatched-parentheses error -/

/-- Depth-scan balance check: scanning from nesting depth `d`, no prefix
closes more parentheses than were opened, and the final depth is zero. -/
def balancedFrom : Nat → List Token → Bool
  | d, [] => d == 0
  | d, Token.lparen :: ts => balancedFrom (d + 1) ts
  | d, Token.rparen :: ts =>
    match d with
    | 0 => false
    | d' + 1 => balancedFrom d' ts
  | d, _ :: ts => balancedFrom d ts

/-- Balance of a whole token sequence. -/
def balancedParens (ts : List Token) : Bool := balancedFrom 0 ts

theorem popGE_decomp (t : Token) (st : List Token) :
    st = (popGE t st).1 ++ (popGE t st).2 ∧
      ∀ q ∈ (popGE t st).1, isOperator q = true := by
  induction st with
  | nil => exact ⟨rfl, by simp [popGE]⟩
  | cons s rest ih =>
    simp only [popGE]
    split
    · rename_i hcond
      obtain ⟨hsplit, hops⟩ := ih
      constructor
      · simp only [List.cons_append]
        rw [← hsplit]
      · intro q hq
        rcases List.mem_cons.mp hq with h | h
        · subst h
          exact (Bool.and_eq_true_iff.mp (Bool.and_eq_true_iff.mp hcond).1).2
        · exact hops q h
    · exact ⟨rfl, by simp⟩

theorem popUntilLParen_none_iff (st : List Token) :
    popUntilLParen st = none ↔ Token.lparen ∉ st := by
  induction st with
  | nil => simp [popUntilLParen]
  | cons s rest ih =>
    simp only [popUntilLParen]
    by_cases hs : s = Token.lparen
    · subst hs; simp
    · rw [if_neg hs]
      cases hp : popUntilLParen rest with
      | some p =>
        have hmem : Token.lparen ∈ rest := by
          by_contra hm
          rw [← ih, hp] at hm
          exact absurd hm (by simp)
        simp [List.mem_cons, hmem]
      | none =>
        have hnm := ih.mp hp
        have hns : ¬ Token.lparen = s := fun h => hs h.symm
        simp [List.mem_cons, hnm, hns]

theorem popUntilLParen_decomp (st a b : List Token)
    (h : popUntilLParen st = some (a, b)) :
    st = a ++ Token.lparen :: b ∧ Token.lparen ∉ a := by
  induction st generalizing a b with
  | nil => simp [popUntilLParen] at h
  | cons s rest ih =>
    simp only [popUntilLParen] at h
    by_cases hs : s = Token.lparen
    · subst hs
      rw [if_pos rfl] at h
      obtain ⟨ha, hb⟩ := Prod.mk.inj (Option.some.inj h)
      subst ha; subst hb
      simp
    · rw [if_neg hs] at h
      cases hp : popUntilLParen rest with
      | none => rw [hp] at h; exact absurd h (by simp)
      | some p =>
        obtain ⟨p1, p2⟩ := p
        rw [hp] at h
        obtain ⟨ha, hb⟩ := Prod.mk.inj (Option.some.inj h)
        subst ha; subst hb
        obtain ⟨hsp, hna⟩ := ih p1 p2 hp
        constructor
        · rw [List.cons_append, ← hsp]
        · intro hm
          rcases List.mem_cons.mp hm with h1 | h1
          · exact hs h1.symm
          · exact hna h1

theorem syDrain_error {out st : List Token} {e : CalcError}
    (h : syDrain out st = .error e) : e = .mismatchedParentheses := by
  induction st generalizing out with
  | nil => simp [syDrain] at h
  | cons s rest ih =>
    simp only [syDrain] at h
    split at h
    · injection h with h1; exact h1.symm
    · exact ih h

theorem syDrain_ok_iff : ∀ (st out : List Token), Token.rparen ∉ st →
    ((∃ r, syDrain out st = .ok r) ↔ Token.lparen ∉ st) := by
  intro st
  induction st with
  | nil => intro out hnr; simp [syDrain]
  | cons s rest ih =>
    intro out hnr
    have hs : s ≠ Token.rparen := fun h => hnr (h ▸ List.mem_cons_self s rest)
    by_cases hl : s = Token.lparen
    · subst hl
      simp only [syDrain, if_pos (Or.inl rfl)]
      constructor
      · rintro ⟨r, hr⟩; exact absurd hr (by simp)
      · intro h; exact absurd (List.mem_cons_self _ _) h
    · simp only [syDrain]
      rw [if_neg (by simp [hl, hs])]
      rw [ih (out ++ [s]) (fun hm => hnr (List.mem_cons_of_mem _ hm))]
      constructor
      · intro h hm
        rcases List.mem_cons.mp hm with h1 | h1
        · exact hl h1.symm
        · exact h h1
      · intro h hm
        exact h (List.mem_cons_of_mem _ hm)

theorem syGo_error_kind : ∀ (ts out st : List Token) (e : CalcError),
    syGo ts out st = .error e → e = .mismatchedParentheses := by
  intro ts
  induction ts with
  | nil => intro out st e h; exact syDrain_error h
  | cons t ts ih =>
    intro out st e h
    cases t with
    | num v => exact ih _ _ _ h
    | lparen => exact ih _ _ _ h
    | rparen =>
      simp only [syGo] at h
      cases hp : popUntilLParen st with
      | some p => rw [hp] at h; exact ih _ _ _ h
      | none => rw [hp] at h; injection h with h1; exact h1.symm
    | plus => exact ih _ _ _ h
    | minus => exact ih _ _ _ h
    | times => exact ih _ _ _ h
    | div => exact ih _ _ _ h
    | neg => exact ih _ _ _ h

theorem opCase_balance (t : Token) (ht : isOperator t = true)
    (ts st out : List Token) (hnr : Token.rparen ∉ st)
    (ih : ∀ st out, Token.rparen ∉ st →
      ((∃ r, syGo ts out st = .ok r) ↔
        balancedFrom (st.count Token.lparen) ts = true)) :
    (∃ r, syGo ts (out ++ (popGE t st).1) (t :: (popGE t st).2) = .ok r) ↔
      balancedFrom (st.count Token.lparen) ts = true := by
  obtain ⟨hsplit, hops⟩ := popGE_decomp t st
  have hne := isOperator_not_paren ht
  have hnr2 : Token.rparen ∉ (t :: (popGE t st).2) := by
    intro hm
    rcases List.mem_cons.mp hm with h1 | h1
    · exact hne.2 h1.symm
    · exact hnr (by rw [hsplit]; exact List.mem_append_right _ h1)
  have h1 : (popGE t st).1.count Token.lparen = 0 :=
    List.count_eq_zero.mpr
      (fun hm => (isOperator_not_paren (hops _ hm)).1 rfl)
  have ht2 : (t == Token.lparen) = false := beq_eq_false_iff_ne.mpr hne.1
  have hcount : (t :: (popGE t st).2).count Token.lparen = st.count Token.lparen := by
    conv_rhs => rw [hsplit]
    rw [List.count_append, h1, List.count_cons, ht2]
    simp
  rw [← hcount]
  exact ih _ _ hnr2

theorem syGo_ok_iff : ∀ (ts st out : List Token), Token.rparen ∉ st →
    ((∃ r, syGo ts out st = .ok r) ↔
      balancedFrom (st.count Token.lparen) ts = true) := by
  intro ts
  induction ts with
  | nil =>
    intro st out hnr
    show (∃ r, syDrain out st = .ok r) ↔ (st.count Token.lparen == 0) = true
    rw [syDrain_ok_iff st out hnr]
    simp [List.count_eq_zero]
  | cons t ts ih =>
    intro st out hnr
    cases t with
    | num v =>
      show (∃ r, syGo ts (out ++ [Token.num v]) st = .ok r) ↔ _
      exact ih st _ hnr
    | lparen =>
      show (∃ r, syGo ts out (Token.lparen :: st) = .ok r) ↔ _
      have hnr2 : Token.rparen ∉ (Token.lparen :: st) := by
        intro hm
        rcases List.mem_cons.mp hm with h1 | h1
        · exact absurd h1 (by simp)
        · exact hnr h1
      rw [ih (Token.lparen :: st) out hnr2, List.count_cons_self]
      exact Iff.rfl
    | rparen =>
      show (∃ r, (match popUntilLParen st with
        | some p => syGo ts (out ++ p.1) p.2
        | none => Except.error CalcError.mismatchedParentheses) = .ok r) ↔ _
      cases hp : popUntilLParen st with
      | none =>
        have hnl : Token.lparen ∉ st := (popUntilLParen_none_iff st).mp hp
        have hc : st.count Token.lparen = 0 := List.count_eq_zero.mpr hnl
        rw [hc]
        constructor
        · rintro ⟨r, hr⟩; exact absurd hr (by simp)
        · intro h
          rw [show balancedFrom 0 (Token.rparen :: ts) = false from rfl] at h
          exact absurd h (by simp)
      | some p =>
        obtain ⟨a, b⟩ := p
        obtain ⟨hsplit, hna⟩ := popUntilLParen_decomp st a b hp
        have hnrb : Token.rparen ∉ b := by
          intro hm
          exact hnr (by rw [hsplit]; simp [hm])
        have hcst : st.count Token.lparen = b.count Token.lparen + 1 := by
          rw [hsplit, List.count_append, List.count_eq_zero.mpr hna,
            List.count_cons_self]
          omega
        rw [hcst]
        show _ ↔ balancedFrom (b.count Token.lparen) ts = true
        exact ih b (out ++ a) hnrb
    | plus =>
      simp only [syGo_op Token.plus rfl]
      exact opCase_balance Token.plus rfl ts st out hnr ih
    | minus =>
      simp only [syGo_op Token.minus rfl]
      exact opCase_balance Token.minus rfl ts st out hnr ih
    | times =>
      simp only [syGo_op Token.times rfl]
      exact opCase_balance Token.times rfl ts st out hnr ih
    | div =>
      simp only [syGo_op Token.div rfl]
      exact opCase_balance Token.div rfl ts st out hnr ih
    | neg =>
      simp only [syGo_op Token.neg rfl]
      exact opCase_balance Token.neg rfl ts st out hnr ih

/-- `shuntingYard` fails (necessarily with `Mismatched parentheses`, by
`syGo_error_kind`) exactly on unbalanced parentheses. -/
theorem shuntingYard_mismatch_iff (ts : List Token) :
    shuntingYard ts = .error .mismatchedParentheses ↔
      balancedParens ts = false := by
  have hok := syGo_ok_iff ts [] [] (by simp)
  constructor
  · intro h
    cases hb : balancedParens ts with
    | false => rfl
    | true =>
      obtain ⟨r, hr⟩ := hok.mpr hb
      have : shuntingYard ts = .ok r := hr
      rw [this] at h
      exact absurd h (by simp)
  · intro h
    cases hsy : shuntingYard ts with
    | ok r =>
      have hb : balancedFrom 0 ts = true := hok.mp ⟨r, hsy⟩
      rw [balancedParens] at h
      rw [hb] at h
      exact absurd h (by simp)
    | error e =>
      rw [syGo_error_kind ts [] [] e hsy]

/-! ## Formatter helper -/

theorem formatResult_intCast (n : ℤ) : formatResult (n : ℚ) = toString n := by
  simp [formatResult, Int.floor_intCast]

/-! ## Claims -/

/-- C1: For every well-formed expression string using only the binary
operators `+ - * /` and integer literals (tokenizing to a token list that
reads, under the standard infix conventions — `*`, `/` tighter than `+`, `-`,
same-precedence operators left-to-right, parentheses grouping — as an
expression `e`), `calculate` returns the formatted string of `e`'s value
under standard arithmetic; in particular `calculate "2+3*4" = "14"` and
`calculate "(2+3)*4" = "20"`. -/
theorem claim1_calculate_wellformed :
    (∀ (s : String) (ts : List Token) (e : Expr) (v : ℚ),
      tokenize s = .ok ts → Reads ts 1 e → evalExpr e = .ok v →
      calculate s = formatResult v) ∧
    calculate "2+3*4" = "14" ∧ calculate "(2+3)*4" = "20" := by
  refine ⟨fun s ts e v h1 h2 h3 => calculate_wellFormed h1 h2 h3, ?_, ?_⟩
  · have htok : tokenize "2+3*4" =
        .ok [Token.num 2, Token.plus, Token.num 3, Token.times, Token.num 4] := by
      simp [tokenize, stripWs, tokenizeGo, scanNum, parseDecimal, digitsVal,
        digitVal, Except.map]
    simp [calculate, calcValue, htok, toRPN, handleUnaryMinus, humGo, negTrigger,
      shuntingYard, syGo, popGE, popUntilLParen, syDrain, evalRPN, evalGo,
      applyOperator, isOperator, precedence]
    rw [show ((2:ℚ) + 3 * 4) = ((14:ℤ):ℚ) by norm_num, formatResult_intCast]
    decide
  · have htok : tokenize "(2+3)*4" =
        .ok [Token.lparen, Token.num 2, Token.plus, Token.num 3, Token.rparen,
          Token.times, Token.num 4] := by
      simp [tokenize, stripWs, tokenizeGo, scanNum, parseDecimal, digitsVal,
        digitVal, Except.map]
    simp [calculate, calcValue, htok, toRPN, handleUnaryMinus, humGo, negTrigger,
      shuntingYard, syGo, popGE, popUntilLParen, syDrain, evalRPN, evalGo,
      applyOperator, isOperator, precedence]
    rw [show (((2:ℚ) + 3) * 4) = ((20:ℤ):ℚ) by norm_num, formatResult_intCast]
    decide

/-- Witness for C1 at the concrete input `"2+3*4"`. -/
theorem claim1_witness :
    calculate "2+3*4" = formatResult ((14 : ℕ) : ℚ) := by
  have h1 : tokenize "2+3*4" = .ok [Token.num ((2 : ℕ) : ℚ), Token.plus,
      Token.num ((3 : ℕ) : ℚ), Token.times, Token.num ((4 : ℕ) : ℚ)] := by
    simp [tokenize, stripWs, tokenizeGo, scanNum, parseDecimal, digitsVal,
      digitVal, Except.map]
    try norm_num
  have hr : Reads [Token.num ((3 : ℕ) : ℚ), Token.times, Token.num ((4 : ℕ) : ℚ)]
      2 (Expr.bin BOp.mul (Expr.lit 3) (Expr.lit 4)) :=
    @Reads.bin BOp.mul (Expr.lit 3) (Expr.lit 4) [Token.num ((3 : ℕ) : ℚ)]
      [Token.num ((4 : ℕ) : ℚ)] 2 (by decide) (Reads.lit 3 2) (Reads.lit 4 3)
  have h2 : Reads [Token.num ((2 : ℕ) : ℚ), Token.plus, Token.num ((3 : ℕ) : ℚ),
      Token.times, Token.num ((4 : ℕ) : ℚ)] 1
      (Expr.bin BOp.add (Expr.lit 2) (Expr.bin BOp.mul (Expr.lit 3) (Expr.lit 4))) :=
    @Reads.bin BOp.add (Expr.lit 2) (Expr.bin BOp.mul (Expr.lit 3) (Expr.lit 4))
      [Token.num ((2 : ℕ) : ℚ)]
      [Token.num ((3 : ℕ) : ℚ), Token.times, Token.num ((4 : ℕ) : ℚ)] 1
      (by decide) (Reads.lit 2 1) hr
  have h3 : evalExpr
      (Expr.bin BOp.add (Expr.lit 2) (Expr.bin BOp.mul (Expr.lit 3) (Expr.lit 4))) =
      .ok ((14 : ℕ) : ℚ) := by
    simp [evalExpr]
    try norm_num
  exact claim1_calculate_wellformed.1 _ _ _ _ h1 h2 h3

/-- C2: For every input string, `calculate` is total and converts every
pipeline failure into `"ERROR: " ++ message` with the message one of the
four fixed strings; on success it returns the formatted value. -/
theorem claim2_error_boundary (s : String) :
    (∃ v, calcValue s = .ok v ∧ calculate s = formatResult v) ∨
    (∃ e : CalcError, calcValue s = .error e ∧
      calculate s = "ERROR: " ++ e.message ∧
      (e.message = "Invalid character" ∨ e.message = "Malformed expression" ∨
        e.message = "Mismatched parentheses" ∨ e.message = "Division by zero")) := by
  cases h : calcValue s with
  | ok v => exact Or.inl ⟨v, rfl, by simp [calculate, h]⟩
  | error e =>
    refine Or.inr ⟨e, rfl, by simp [calculate, h], ?_⟩
    cases e <;> simp [CalcError.message]

/-- C3: In the postfix evaluator every binary operator pops the most recently
pushed value as the right operand, the one below as the left operand, and
pushes `left OP right`; the RPN of `"10-2-3"` is `10 2 - 3 -` and evaluates
to `5` (not to `(3-2)-10 = -9`). -/
theorem claim3_operand_order :
    (∀ (t : Token),
      (t = Token.plus ∨ t = Token.minus ∨ t = Token.times ∨ t = Token.div) →
      ∀ (right left : ℚ) (rest : List ℚ) (ts : List Token),
        evalGo (right :: left :: rest) (t :: ts) =
          match applyOperator t [right, left] with
          | .ok v => evalGo (v :: rest) ts
          | .error e => .error e) ∧
    (∀ r l : ℚ, applyOperator Token.plus [r, l] = .ok (l + r) ∧
      applyOperator Token.minus [r, l] = .ok (l - r) ∧
      applyOperator Token.times [r, l] = .ok (l * r) ∧
      (r ≠ 0 → applyOperator Token.div [r, l] = .ok (l / r))) ∧
    toRPN [Token.num 10, Token.minus, Token.num 2, Token.minus, Token.num 3] =
      .ok [Token.num 10, Token.num 2, Token.minus, Token.num 3, Token.minus] ∧
    evalRPN [Token.num 10, Token.num 2, Token.minus, Token.num 3, Token.minus] =
      .ok 5 ∧
    ((3 : ℚ) - 2) - 10 ≠ 5 ∧
    calculate "10-2-3" = "5" := by
  refine ⟨evalGo_binop, ?_, ?_, ?_, by norm_num, ?_⟩
  · intro r l
    refine ⟨rfl, rfl, rfl, fun h => ?_⟩
    simp [applyOperator, h]
  · simp [toRPN, handleUnaryMinus, humGo, negTrigger, shuntingYard, syGo,
      popGE, popUntilLParen, syDrain, isOperator, precedence]
  · simp [evalRPN, evalGo, applyOperator]
    norm_num
  · have htok : tokenize "10-2-3" =
        .ok [Token.num 10, Token.minus, Token.num 2, Token.minus, Token.num 3] := by
      simp [tokenize, stripWs, tokenizeGo, scanNum, parseDecimal, digitsVal,
        digitVal, Except.map]
    simp [calculate, calcValue, htok, toRPN, handleUnaryMinus, humGo, negTrigger,
      shuntingYard, syGo, popGE, popUntilLParen, syDrain, evalRPN, evalGo,
      applyOperator, isOperator, precedence]
    rw [show (((10:ℚ) - 2) - 3) = ((5:ℤ):ℚ) by norm_num, formatResult_intCast]
    decide

/-- Witness for C3 at the concrete operator `-` and stack `[2, 10]`. -/
theorem claim3_witness :
    (evalGo [(2 : ℚ), 10] [Token.minus] =
      match applyOperator Token.minus [(2 : ℚ), (10 : ℚ)] with
      | .ok v => evalGo [v] []
      | .error e => .error e) ∧
    applyOperator Token.div [(2 : ℚ), (10 : ℚ)] = .ok (10 / 2) :=
  ⟨claim3_operand_order.1 Token.minus (Or.inr (Or.inl rfl)) 2 10 [] [],
    (claim3_operand_order.2.1 2 10).2.2.2 (by norm_num)⟩

/-- C4 (counterexample): the claim that a `NEG` on the operator stack is
never popped by a subsequent incoming operator before its operand appears is
false: the incoming operator's case pops every stacked operator of precedence
≥ its own, and `precedence NEG = 3` is ≥ every operator precedence, so a
stacked `NEG` is popped by any incoming operator.  Concretely, on the
normalized sequence `NEG NEG 3` (input `"--3"`) the second `NEG` pops the
first one to the output before its operand, producing the RPN `NEG 3 NEG`,
and `calculate "--3"` fails as malformed instead of evaluating to `3`. -/
theorem claim4_counterexample :
    popGE Token.neg [Token.neg] = ([Token.neg], []) ∧
    shuntingYard [Token.neg, Token.neg, Token.num 3] =
      .ok [Token.neg, Token.num 3, Token.neg] ∧
    calculate "--3" = "ERROR: Malformed expression" := by
  refine ⟨by simp [popGE, isOperator, precedence], ?_, ?_⟩
  · simp [shuntingYard, syGo, popGE, syDrain, isOperator, precedence]
  · have htok : tokenize "--3" =
        .ok [Token.minus, Token.minus, Token.num 3] := by
      simp [tokenize, stripWs, tokenizeGo, scanNum, parseDecimal, digitsVal,
        digitVal, Except.map]
    simp [calculate, calcValue, htok, toRPN, handleUnaryMinus, humGo, negTrigger,
      shuntingYard, syGo, popGE, popUntilLParen, syDrain, evalRPN, evalGo,
      applyOperator, isOperator, precedence, CalcError.message]

/-- C4 (amended): during infix-to-postfix conversion an incoming operator
pops every stacked operator of precedence ≥ its own; since `NEG` has the
highest precedence 3, a stacked `NEG` is popped by *every* subsequent
incoming operator — including an incoming `NEG` arriving before the first
`NEG`'s operand, so `"--3"` is rejected as malformed.  When `NEG` is
immediately followed by its operand (a number or parenthesized group), it
still binds tightest, e.g. `calculate "-(2+3)" = "-5"`. -/
theorem claim4_amended_neg_always_popped :
    (∀ (t : Token), isOperator t = true → ∀ (st : List Token),
      popGE t (Token.neg :: st) =
        (Token.neg :: (popGE t st).1, (popGE t st).2)) ∧
    calculate "--3" = "ERROR: Malformed expression" ∧
    calculate "-(2+3)" = "-5" := by
  refine ⟨?_, ?_, ?_⟩
  · intro t ht st
    have hp : precedence t ≤ precedence Token.neg := by cases t <;> norm_num [precedence]
    simp [popGE, isOperator, hp]
  · have htok : tokenize "--3" =
        .ok [Token.minus, Token.minus, Token.num 3] := by
      simp [tokenize, stripWs, tokenizeGo, scanNum, parseDecimal, digitsVal,
        digitVal, Except.map]
    simp [calculate, calcValue, htok, toRPN, handleUnaryMinus, humGo, negTrigger,
      shuntingYard, syGo, popGE, popUntilLParen, syDrain, evalRPN, evalGo,
      applyOperator, isOperator, precedence, CalcError.message]
  · have htok : tokenize "-(2+3)" =
        .ok [Token.minus, Token.lparen, Token.num 2, Token.plus, Token.num 3,
          Token.rparen] := by
      simp [tokenize, stripWs, tokenizeGo, scanNum, parseDecimal, digitsVal,
        digitVal, Except.map]
    simp [calculate, calcValue, htok, toRPN, handleUnaryMinus, humGo, negTrigger,
      shuntingYard, syGo, popGE, popUntilLParen, syDrain, evalRPN, evalGo,
      applyOperator, isOperator, precedence]
    rw [show ((-3:ℚ) + -2) = ((-5:ℤ):ℚ) by norm_num, formatResult_intCast]
    decide

/-- Witness for the amended C4 at the incoming operator `+`. -/
theorem claim4_witness :
    popGE Token.plus [Token.neg] =
      (Token.neg :: (popGE Token.plus []).1, (popGE Token.plus []).2) :=
  claim4_amended_neg_always_popped.1 Token.plus rfl []

/-- C5: At the moment `/` is applied, evaluation fails with `DivisionByZero`
exactly when the right-hand operand (the stack top) is zero, in which case no
division is performed; only `/` can raise `DivisionByZero`; and
`calculate "10/0" = "ERROR: Division by zero"`. -/
theorem claim5_division_by_zero :
    (∀ (left right : ℚ) (rest : List ℚ) (ts : List Token), right = 0 →
      evalGo (right :: left :: rest) (Token.div :: ts) =
        .error .divisionByZero) ∧
    (∀ (left right : ℚ) (rest : List ℚ) (ts : List Token), right ≠ 0 →
      evalGo (right :: left :: rest) (Token.div :: ts) =
        evalGo (left / right :: rest) ts) ∧
    (∀ (op : Token) (args : List ℚ),
      applyOperator op args = .error .divisionByZero →
      op = Token.div ∧ args.getD 0 0 = 0) ∧
    calculate "10/0" = "ERROR: Division by zero" := by
  refine ⟨?_, ?_, ?_, ?_⟩
  · intro l r rest ts h
    subst h
    simp [evalGo, applyOperator]
  · intro l r rest ts h
    simp [evalGo, applyOperator, h]
  · intro op args h
    cases op with
    | num v => simp [applyOperator] at h
    | plus => simp [applyOperator] at h
    | minus => simp [applyOperator] at h
    | times => simp [applyOperator] at h
    | neg => simp [applyOperator] at h
    | lparen => simp [applyOperator] at h
    | rparen => simp [applyOperator] at h
    | div =>
      refine ⟨rfl, ?_⟩
      by_cases h0 : args.getD 0 0 = 0
      · exact h0
      · exfalso
        rw [show applyOperator Token.div args =
            (if args.getD 0 0 = 0 then Except.error CalcError.divisionByZero
             else Except.ok (args.getD 1 0 / args.getD 0 0)) from rfl,
          if_neg h0] at h
        exact absurd h (by simp)
  · have htok : tokenize "10/0" =
        .ok [Token.num 10, Token.div, Token.num 0] := by
      simp [tokenize, stripWs, tokenizeGo, scanNum, parseDecimal, digitsVal,
        digitVal, Except.map]
    simp [calculate, calcValue, htok, toRPN, handleUnaryMinus, humGo, negTrigger,
      shuntingYard, syGo, popGE, popUntilLParen, syDrain, evalRPN, evalGo,
      applyOperator, isOperator, precedence, CalcError.message]

/-- Witness for C5 at the concrete stack `[0, 10]` and `[2, 10]`. -/
theorem claim5_witness :
    evalGo [(0 : ℚ), 10] [Token.div] = .error .divisionByZero ∧
    evalGo [(2 : ℚ), 10] [Token.div] = evalGo [(10 : ℚ) / 2] [] :=
  ⟨claim5_division_by_zero.1 10 0 [] [] rfl,
    claim5_division_by_zero.2.1 10 2 [] [] (by norm_num)⟩

/-- C6: the unary-minus normalizer is a total function (it returns a plain
token list, never an error), preserves length, and rewrites position `i` to
`NEG` exactly when it holds a `-` token and either `i = 0` or the previous
input token is `(`, `+`, `-`, `*` or `/` (the `negTrigger` test); in
particular `calculate "-3+5" = "2"` and `calculate "2*-4" = "-8"`. -/
theorem claim6_unary_minus_rule :
    (∀ (ts : List Token) (i : ℕ),
      (handleUnaryMinus ts).get? i = (ts.get? i).map
        (fun t => if t = Token.minus &&
            negTrigger (if i = 0 then none else ts.get? (i - 1))
          then Token.neg else t)) ∧
    (∀ ts : List Token, (handleUnaryMinus ts).length = ts.length) ∧
    calculate "-3+5" = "2" ∧ calculate "2*-4" = "-8" := by
  refine ⟨handleUnaryMinus_get?, fun ts => humGo_length none ts, ?_, ?_⟩
  · have htok : tokenize "-3+5" =
        .ok [Token.minus, Token.num 3, Token.plus, Token.num 5] := by
      simp [tokenize, stripWs, tokenizeGo, scanNum, parseDecimal, digitsVal,
        digitVal, Except.map]
    simp [calculate, calcValue, htok, toRPN, handleUnaryMinus, humGo, negTrigger,
      shuntingYard, syGo, popGE, popUntilLParen, syDrain, evalRPN, evalGo,
      applyOperator, isOperator, precedence]
    rw [show (-(3:ℚ) + 5) = ((2:ℤ):ℚ) by norm_num, formatResult_intCast]
    decide
  · have htok : tokenize "2*-4" =
        .ok [Token.num 2, Token.times, Token.minus, Token.num 4] := by
      simp [tokenize, stripWs, tokenizeGo, scanNum, parseDecimal, digitsVal,
        digitVal, Except.map]
    simp [calculate, calcValue, htok, toRPN, handleUnaryMinus, humGo, negTrigger,
      shuntingYard, syGo, popGE, popUntilLParen, syDrain, evalRPN, evalGo,
      applyOperator, isOperator, precedence]
    rw [show (-((2:ℚ) * 4)) = ((-8:ℤ):ℚ) by norm_num, formatResult_intCast]
    decide

/-- C7: infix-to-postfix conversion fails — and then necessarily with
`MismatchedParentheses`, the only error it ever raises — exactly when the
parentheses are unbalanced: some `)` arrives with no `(` left on the operator
stack (a prefix closes more than it opened) or a `(` remains on the stack
after all tokens (the total counts differ); and
`calculate "(1+2" = "ERROR: Mismatched parentheses"`. -/
theorem claim7_mismatched_parentheses :
    (∀ ts : List Token, shuntingYard ts = .error .mismatchedParentheses ↔
      balancedParens ts = false) ∧
    (∀ (ts : List Token) (e : CalcError), shuntingYard ts = .error e →
      e = .mismatchedParentheses) ∧
    calculate "(1+2" = "ERROR: Mismatched parentheses" := by
  refine ⟨shuntingYard_mismatch_iff,
    fun ts e h => syGo_error_kind ts [] [] e h, ?_⟩
  have htok : tokenize "(1+2" =
      .ok [Token.lparen, Token.num 1, Token.plus, Token.num 2] := by
    simp [tokenize, stripWs, tokenizeGo, scanNum, parseDecimal, digitsVal,
      digitVal, Except.map]
  simp [calculate, calcValue, htok, toRPN, handleUnaryMinus, humGo, negTrigger,
    shuntingYard, syGo, popGE, popUntilLParen, syDrain, evalRPN, evalGo,
    applyOperator, isOperator, precedence, CalcError.message]

/-- Witness for C7 at the concrete token list `[)]`. -/
theorem claim7_witness :
    shuntingYard [Token.rparen] = .error .mismatchedParentheses ∧
    CalcError.mismatchedParentheses = CalcError.mismatchedParentheses := by
  have h1 := (claim7_mismatched_parentheses.1 [Token.rparen]).mpr (by decide)
  exact ⟨h1, claim7_mismatched_parentheses.2.1 [Token.rparen] _ h1⟩

/-- C8: the tokenizer fails with `Malformed expression` when the
whitespace-stripped input is empty, and with `Invalid character` whenever the
stripped input contains a character outside `[0-9.+\-*/()]`; in particular
`calculate "" = "ERROR: Malformed expression"` and
`calculate "2+@" = "ERROR: Invalid character"`. -/
theorem claim8_tokenizer_errors :
    (∀ s : String, stripWs s.toList = [] →
      calculate s = "ERROR: Malformed expression") ∧
    (∀ s : String, (∃ c ∈ stripWs s.toList, validChar c = false) →
      calculate s = "ERROR: Invalid character") ∧
    calculate "" = "ERROR: Malformed expression" ∧
    calculate "2+@" = "ERROR: Invalid character" := by
  refine ⟨?_, ?_, ?_, ?_⟩
  · intro s h
    simp [calculate, calcValue, tokenize_empty h, CalcError.message]
  · intro s h
    simp [calculate, calcValue, tokenize_invalid h, CalcError.message]
  · simp [calculate, calcValue, tokenize, stripWs, CalcError.message]
  · have htok : tokenize "2+@" = .error .invalidCharacter := by
      simp [tokenize, stripWs, tokenizeGo, scanNum, parseDecimal, digitsVal,
        digitVal, Except.map]
    simp [calculate, calcValue, htok, CalcError.message]

/-- Witness for C8 at the concrete inputs `" "` and `"@"`. -/
theorem claim8_witness :
    calculate " " = "ERROR: Malformed expression" ∧
    calculate "@" = "ERROR: Invalid character" := by
  constructor
  · apply claim8_tokenizer_errors.1
    decide
  · apply claim8_tokenizer_errors.2.1
    refine ⟨'@', ?_, ?_⟩ <;> decide

/-- C9: a numeric token consumes one contiguous run containing at most one
decimal point (the consumed run of the scan never holds two `'.'`), a second
`'.'` merely terminates the run (the scan splits its input, consumed ++ rest,
without error); tokenizing `"1.2.3"` yields the number 1.2 followed by the
tokens of the remaining text `".3"`, with no `InvalidCharacter` error. -/
theorem claim9_lenient_second_dot :
    (∀ cs : List Char, (scanNum cs false).1.count '.' ≤ 1) ∧
    (∀ (cs : List Char) (b : Bool), (scanNum cs b).1 ++ (scanNum cs b).2 = cs) ∧
    tokenize "1.2.3" = .ok [Token.num (6/5), Token.num (3/10)] := by
  refine ⟨fun cs => ?_, scanNum_split, ?_⟩
  · simpa using scanNum_dot_count cs false
  · simp [tokenize, stripWs, tokenizeGo, scanNum, parseDecimal, digitsVal,
      digitVal, Except.map]
    norm_num

end Calc
